import Mathlib

/-!
Formal model of the order-state projection and notification-delivery
subsystem of `bot.py` (Telegram logistics bot over a Supabase event log).

Conventions of the shallow embedding:
* Timestamps (`created_at`) are modelled as `Nat`.  The source stores
  ISO-8601 strings and compares them with `>` / `>=`; lexicographic
  comparison of such strings agrees with chronological order, so a
  linearly ordered `Nat` is a faithful abstraction.
* A Python `dict` (insertion ordered, unique keys) is modelled as an
  association list built by the same fold the source performs.
* Database queries are modelled as filter + sort over a list `store`
  standing for the table contents; `ws` is the window start
  (`thirty_days_ago` in the source), so the `gte("created_at", ...)`
  clause becomes `ws ≤ e.created_at`.
* Only the payload field the verified claims touch (`status`) is kept in
  the event record; the display-only fields (`client`, `containers`,
  `weight`) do not influence any claim.
-/

namespace Bot

/-- A row of the `cloud_sync_log` table, as read by the bot. -/
structure Event where
  order_id : Nat
  event_type : String
  created_at : Nat
  status : String
  deriving DecidableEq

/-- Lookup in an association list (first matching key wins), the model of
`order_id in orders_dict` / `orders_dict[order_id]`. -/
def alookup (k : Nat) : List (Nat × Event) → Option Event
  | [] => none
  | p :: d => if p.1 = k then some p.2 else alookup k d

/-- Replace the value stored at the first occurrence of key `k`, the model
of `orders_dict[order_id] = event` when the key is already present. -/
def aupdate (k : Nat) (v : Event) : List (Nat × Event) → List (Nat × Event)
  | [] => []
  | p :: d => if p.1 = k then (k, v) :: d else p :: aupdate k v d

/-- One iteration of the grouping loop of `show_orders`
(`bot.py` lines 139-146): insert when the `order_id` is new, overwrite
when the incoming event has a strictly greater `created_at`. -/
def ordersStep (d : List (Nat × Event)) (e : Event) : List (Nat × Event) :=
  match alookup e.order_id d with
  | none => d ++ [(e.order_id, e)]
  | some cur => if cur.created_at < e.created_at then aupdate e.order_id e d else d

/-- The `orders_dict` built by `show_orders` from the fetched events. -/
def groupOrders (events : List Event) : List (Nat × Event) :=
  events.foldl ordersStep []

/-- The effect of one `ordersStep` on the value stored at a single key. -/
def keyStep (k : Nat) (acc : Option Event) (e : Event) : Option Event :=
  if e.order_id = k then
    match acc with
    | none => some e
    | some cur => if cur.created_at < e.created_at then some e else some cur
  else acc

theorem alookup_append_of_none {k : Nat} {d₁ : List (Nat × Event)}
    (d₂ : List (Nat × Event)) (h : alookup k d₁ = none) :
    alookup k (d₁ ++ d₂) = alookup k d₂ := by
  induction d₁ with
  | nil => simp
  | cons p d ih =>
    rw [alookup] at h
    by_cases hp : p.1 = k
    · simp [hp] at h
    · simpa [alookup, hp] using ih (by simpa [hp] using h)

theorem alookup_append_of_some {k : Nat} {d₁ : List (Nat × Event)} {v : Event}
    (d₂ : List (Nat × Event)) (h : alookup k d₁ = some v) :
    alookup k (d₁ ++ d₂) = some v := by
  induction d₁ with
  | nil => simp [alookup] at h
  | cons p d ih =>
    rw [alookup] at h
    by_cases hp : p.1 = k
    · simp [hp] at h
      simp [alookup, hp, h]
    · simpa [alookup, hp] using ih (by simpa [hp] using h)

theorem alookup_aupdate_of_some {k : Nat} {d : List (Nat × Event)} {cur : Event}
    (v : Event) (h : alookup k d = some cur) :
    alookup k (aupdate k v d) = some v := by
  induction d with
  | nil => simp [alookup] at h
  | cons p d ih =>
    by_cases hp : p.1 = k
    · simp [aupdate, hp, alookup]
    · rw [alookup, if_neg hp] at h
      simp [aupdate, hp, alookup, ih h]

theorem alookup_aupdate_ne {k k' : Nat} (v : Event) (d : List (Nat × Event))
    (h : k' ≠ k) : alookup k (aupdate k' v d) = alookup k d := by
  induction d with
  | nil => simp [aupdate]
  | cons p d ih =>
    by_cases hp : p.1 = k'
    · simp [aupdate, hp, alookup, h, hp ▸ h]
    · simp [aupdate, hp, alookup, ih]

theorem alookup_eq_none_iff {k : Nat} {d : List (Nat × Event)} :
    alookup k d = none ↔ k ∉ d.map Prod.fst := by
  induction d with
  | nil => simp [alookup]
  | cons p d ih =>
    by_cases hp : p.1 = k
    · simp [alookup, hp]
    · rw [alookup, if_neg hp, ih]
      simp only [List.map_cons, List.mem_cons, not_or]
      constructor
      · intro h; exact ⟨fun hk => hp hk.symm, h⟩
      · intro h; exact h.2

theorem map_fst_aupdate (k : Nat) (v : Event) (d : List (Nat × Event)) :
    (aupdate k v d).map Prod.fst = d.map Prod.fst := by
  induction d with
  | nil => simp [aupdate]
  | cons p d ih =>
    by_cases hp : p.1 = k
    · simp [aupdate, hp]
    · simp [aupdate, hp, ih]

/-- The single-step simulation: `ordersStep` acts on each key independently,
exactly as `keyStep` describes. -/
theorem alookup_ordersStep (k : Nat) (d : List (Nat × Event)) (e : Event) :
    alookup k (ordersStep d e) = keyStep k (alookup k d) e := by
  unfold ordersStep keyStep
  by_cases hk : e.order_id = k
  · subst hk
    cases h : alookup e.order_id d with
    | none =>
      simp only [h, if_pos rfl]
      rw [alookup_append_of_none _ h]
      simp [alookup]
    | some cur =>
      simp only [h, if_pos rfl]
      by_cases hlt : cur.created_at < e.created_at
      · simp [hlt, alookup_aupdate_of_some e h]
      · simp [hlt, h]
  · cases h : alookup e.order_id d with
    | none =>
      simp only [h, if_neg hk]
      cases h2 : alookup k d with
      | none =>
        rw [alookup_append_of_none _ h2]
        simp [alookup, hk]
      | some v => rw [alookup_append_of_some _ h2]
    | some cur =>
      simp only [h, if_neg hk]
      by_cases hlt : cur.created_at < e.created_at
      · simp [hlt, alookup_aupdate_ne _ _ hk]
      · simp [hlt]

/-- Folding the whole event list commutes with looking a single key up. -/
theorem alookup_foldl_ordersStep (k : Nat) (l : List Event) :
    ∀ d : List (Nat × Event),
      alookup k (l.foldl ordersStep d) = l.foldl (keyStep k) (alookup k d) := by
  induction l with
  | nil => intro d; rfl
  | cons e l ih =>
    intro d
    rw [List.foldl_cons, List.foldl_cons, ih, alookup_ordersStep]

theorem alookup_groupOrders (k : Nat) (l : List Event) :
    alookup k (groupOrders l) = l.foldl (keyStep k) none :=
  alookup_foldl_ordersStep k l []

theorem nodup_map_fst_ordersStep {d : List (Nat × Event)} (e : Event)
    (h : (d.map Prod.fst).Nodup) : ((ordersStep d e).map Prod.fst).Nodup := by
  unfold ordersStep
  cases hl : alookup e.order_id d with
  | none =>
    have hmem : e.order_id ∉ d.map Prod.fst := alookup_eq_none_iff.mp hl
    simp [List.nodup_append, h, hmem]
  | some cur =>
    by_cases hlt : cur.created_at < e.created_at
    · simpa [hlt, map_fst_aupdate] using h
    · simpa [hlt] using h

theorem nodup_map_fst_groupOrders (l : List Event) :
    ((groupOrders l).map Prod.fst).Nodup := by
  suffices h : ∀ d : List (Nat × Event), (d.map Prod.fst).Nodup →
      ((l.foldl ordersStep d).map Prod.fst).Nodup from h [] (by simp)
  induction l with
  | nil => intro d hd; simpa using hd
  | cons e l ih =>
    intro d hd
    rw [List.foldl_cons]
    exact ih _ (nodup_map_fst_ordersStep e hd)

theorem keyFold_none_iff (k : Nat) (l : List Event) :
    ∀ acc : Option Event,
      l.foldl (keyStep k) acc = none ↔ acc = none ∧ ∀ e ∈ l, e.order_id ≠ k := by
  induction l with
  | nil => intro acc; simp
  | cons x l ih =>
    intro acc
    rw [List.foldl_cons, ih]
    by_cases hx : x.order_id = k
    · have hsome : keyStep k acc x ≠ none := by
        unfold keyStep
        cases acc with
        | none => simp [hx]
        | some cur => by_cases hlt : cur.created_at < x.created_at <;> simp [hx, hlt]
      simp only [hsome, false_and, false_iff, not_and, not_forall]
      intro _
      exact ⟨x, by simp [hx]⟩
    · have hacc : keyStep k acc x = acc := by unfold keyStep; simp [hx]
      rw [hacc]
      constructor
      · rintro ⟨h1, h2⟩
        refine ⟨h1, ?_⟩
        intro e he
        rcases List.mem_cons.mp he with rfl | he'
        · exact hx
        · exact h2 e he'
      · rintro ⟨h1, h2⟩
        exact ⟨h1, fun e he => h2 e (List.mem_cons_of_mem _ he)⟩

/-- Full characterisation of the per-key fold: a produced value `e` either
was already the accumulator and no later event of its order beats it, or
`e` occurs in the list, every earlier event of the same order (and any
accumulator value) is strictly older, and every later event of the same
order is no newer. -/
theorem keyFold_char (k : Nat) (l : List Event) :
    ∀ (acc : Option Event) (e : Event),
      l.foldl (keyStep k) acc = some e →
      (acc = some e ∧ ∀ x ∈ l, x.order_id = k → x.created_at ≤ e.created_at) ∨
      (∃ l₁ l₂, l = l₁ ++ e :: l₂ ∧ e.order_id = k ∧
        (∀ a, acc = some a → a.created_at < e.created_at) ∧
        (∀ x ∈ l₁, x.order_id = k → x.created_at < e.created_at) ∧
        (∀ x ∈ l₂, x.order_id = k → x.created_at ≤ e.created_at)) := by
  induction l with
  | nil =>
    intro acc e h
    simp only [List.foldl_nil] at h
    exact Or.inl ⟨h, by simp⟩
  | cons x l ih =>
    intro acc e h
    rw [List.foldl_cons] at h
    rcases ih (keyStep k acc x) e h with ⟨hacc, hle⟩ | ⟨l₁, l₂, hsplit, hk, haccb, h₁, h₂⟩
    · by_cases hx : x.order_id = k
      · cases acc with
        | none =>
          have hxe : x = e := by
            unfold keyStep at hacc
            simp [hx] at hacc
            exact hacc
          subst hxe
          exact Or.inr ⟨[], l, by simp, hx, by simp, by simp, hle⟩
        | some a =>
          by_cases hlt : a.created_at < x.created_at
          · have hxe : x = e := by
              unfold keyStep at hacc
              simp [hx, hlt] at hacc
              exact hacc
            subst hxe
            refine Or.inr ⟨[], l, by simp, hx, ?_, by simp, hle⟩
            intro a' ha'
            injection ha' with ha'
            exact ha' ▸ hlt
          · have hae : a = e := by
              unfold keyStep at hacc
              simp [hx, hlt] at hacc
              exact hacc
            subst hae
            refine Or.inl ⟨rfl, ?_⟩
            intro x' hx' hk'
            rcases List.mem_cons.mp hx' with rfl | hmem
            · exact Nat.le_of_not_lt hlt
            · exact hle x' hmem hk'
      · have hacc' : keyStep k acc x = acc := by unfold keyStep; simp [hx]
        rw [hacc'] at hacc
        refine Or.inl ⟨hacc, ?_⟩
        intro x' hx' hk'
        rcases List.mem_cons.mp hx' with rfl | hmem
        · exact absurd hk' hx
        · exact hle x' hmem hk'
    · refine Or.inr ⟨x :: l₁, l₂, by rw [hsplit]; rfl, hk, ?_, ?_, h₂⟩
      · intro a ha
        by_cases hx : x.order_id = k
        · cases acc with
          | none => simp at ha
          | some a0 =>
            have ha0 : a = a0 := by injection ha with h2; exact h2.symm
            subst ha0
            by_cases hlt : a.created_at < x.created_at
            · have hxlt : x.created_at < e.created_at := by
                apply haccb
                unfold keyStep
                simp [hx, hlt]
              exact Nat.lt_trans hlt hxlt
            · apply haccb
              unfold keyStep
              simp [hx, hlt]
        · apply haccb
          unfold keyStep
          simp [hx, ha]
      · intro x' hx' hk'
        rcases List.mem_cons.mp hx' with rfl | hmem
        · by_cases hx : x'.order_id = k
          · cases acc with
            | none =>
              apply haccb
              unfold keyStep
              simp [hx]
            | some a0 =>
              by_cases hlt : a0.created_at < x'.created_at
              · apply haccb
                unfold keyStep
                simp [hx, hlt]
              · have ha0 : a0.created_at < e.created_at := by
                  apply haccb
                  unfold keyStep
                  simp [hx, hlt]
                exact Nat.lt_of_le_of_lt (Nat.le_of_not_lt hlt) ha0
          · exact absurd hk' hx
        · exact h₁ x' hmem hk'

theorem groupOrders_lookup_mem {k : Nat} {l : List Event} {e : Event}
    (h : alookup k (groupOrders l) = some e) : e ∈ l ∧ e.order_id = k := by
  rw [alookup_groupOrders] at h
  rcases keyFold_char k l none e h with ⟨habs, _⟩ | ⟨l₁, l₂, hsplit, hk, _, _, _⟩
  · simp at habs
  · exact ⟨by rw [hsplit]; exact List.mem_append_right _ (List.mem_cons_self _ _), hk⟩

theorem groupOrders_lookup_isSome {k : Nat} {l : List Event} {e : Event}
    (he : e ∈ l) (hk : e.order_id = k) :
    ∃ v, alookup k (groupOrders l) = some v := by
  rw [alookup_groupOrders]
  cases h : l.foldl (keyStep k) none with
  | none =>
    rcases (keyFold_none_iff k l none).mp h with ⟨_, hall⟩
    exact absurd hk (hall e he)
  | some v => exact ⟨v, rfl⟩

/-- The descending `created_at` ordering used by the fetches
(`order("created_at", desc=True)`). -/
def descBy (a b : Event) : Prop := b.created_at ≤ a.created_at

instance : DecidableRel descBy := fun a b => Nat.decLe b.created_at a.created_at

instance : IsTotal Event descBy := ⟨fun a b => Nat.le_total b.created_at a.created_at⟩

instance : IsTrans Event descBy := ⟨fun _ _ _ hab hbc => Nat.le_trans hbc hab⟩

/-- The `show_orders` fetch (`bot.py` lines 128-133): exclude
`ORDER_DELETED`, keep the 30-day window, order by `created_at`
descending.  `ws` stands for `thirty_days_ago`. -/
def fetchActive (store : List Event) (ws : Nat) : List Event :=
  List.insertionSort descBy
    (store.filter (fun e => e.event_type != "ORDER_DELETED" && decide (ws ≤ e.created_at)))

theorem mem_fetchActive {store : List Event} {ws : Nat} {e : Event} :
    e ∈ fetchActive store ws ↔
      e ∈ store ∧ e.event_type ≠ "ORDER_DELETED" ∧ ws ≤ e.created_at := by
  unfold fetchActive
  rw [(List.perm_insertionSort descBy _).mem_iff]
  simp [List.mem_filter, and_assoc]

/-- C1: the active-orders projection of `show_orders` keeps at most one
entry per `order_id`; the kept entry is an event of that order whose
`created_at` is the maximum among that order's events in the input, and on
exact ties the event encountered first in input order is kept (every
earlier event of the order is strictly older, every later one no newer). -/
theorem C1_projection_latest_wins (events : List Event) :
    ((groupOrders events).map Prod.fst).Nodup ∧
    ∀ k e, alookup k (groupOrders events) = some e →
      e.order_id = k ∧
      (∀ x ∈ events, x.order_id = k → x.created_at ≤ e.created_at) ∧
      ∃ l₁ l₂, events = l₁ ++ e :: l₂ ∧
        (∀ x ∈ l₁, x.order_id = k → x.created_at < e.created_at) ∧
        (∀ x ∈ l₂, x.order_id = k → x.created_at ≤ e.created_at) := by
  refine ⟨nodup_map_fst_groupOrders events, ?_⟩
  intro k e h
  rw [alookup_groupOrders] at h
  rcases keyFold_char k events none e h with ⟨habs, _⟩ | ⟨l₁, l₂, hsplit, hk, _, h₁, h₂⟩
  · simp at habs
  · refine ⟨hk, ?_, l₁, l₂, hsplit, h₁, h₂⟩
    intro x hx hkx
    rw [hsplit] at hx
    rcases List.mem_append.mp hx with hx1 | hx2
    · exact Nat.le_of_lt (h₁ x hx1 hkx)
    · rcases List.mem_cons.mp hx2 with rfl | hx3
      · exact Nat.le_refl _
      · exact h₂ x hx3 hkx

/-- C5: `ORDER_DELETED` events are excluded at the fetch boundary, so no
projection entry is derived from a deletion; an order whose only in-window
events are deletions has no entry; an order with any non-deletion event in
the window has an entry (even when a more recent deletion exists). -/
theorem C5_deleted_excluded_at_fetch (store : List Event) (ws : Nat) :
    (∀ k e, alookup k (groupOrders (fetchActive store ws)) = some e →
        e ∈ store ∧ e.order_id = k ∧ ws ≤ e.created_at ∧
          e.event_type ≠ "ORDER_DELETED") ∧
    (∀ k, (∀ e ∈ store, e.order_id = k → ws ≤ e.created_at →
            e.event_type = "ORDER_DELETED") →
        alookup k (groupOrders (fetchActive store ws)) = none) ∧
    (∀ e ∈ store, ws ≤ e.created_at → e.event_type ≠ "ORDER_DELETED" →
        ∃ v, alookup e.order_id (groupOrders (fetchActive store ws)) = some v) := by
  refine ⟨?_, ?_, ?_⟩
  · intro k e h
    obtain ⟨hmem, hk⟩ := groupOrders_lookup_mem h
    obtain ⟨hs, hnd, hw⟩ := mem_fetchActive.mp hmem
    exact ⟨hs, hk, hw, hnd⟩
  · intro k hall
    cases h : alookup k (groupOrders (fetchActive store ws)) with
    | none => rfl
    | some e =>
      obtain ⟨hmem, hk⟩ := groupOrders_lookup_mem h
      obtain ⟨hs, hnd, hw⟩ := mem_fetchActive.mp hmem
      exact absurd (hall e hs hk hw) hnd
  · intro e hs hw hnd
    exact groupOrders_lookup_isSome (mem_fetchActive.mpr ⟨hs, hnd, hw⟩) rfl

/-- Distinct timestamps on the input list. -/
def DistinctTimes (l : List Event) : Prop :=
  l.Pairwise (fun a b => a.created_at ≠ b.created_at)

instance (l : List Event) : Decidable (DistinctTimes l) :=
  inferInstanceAs (Decidable (l.Pairwise _))

/-- Under distinct timestamps, the kept entry is the strict maximum. -/
theorem groupOrders_lookup_strictMax {k : Nat} {l : List Event} {e : Event}
    (hd : DistinctTimes l) (h : alookup k (groupOrders l) = some e) :
    e ∈ l ∧ e.order_id = k ∧
      ∀ x ∈ l, x.order_id = k → x ≠ e → x.created_at < e.created_at := by
  rw [alookup_groupOrders] at h
  rcases keyFold_char k l none e h with ⟨habs, _⟩ | ⟨l₁, l₂, hsplit, hk, _, h₁, h₂⟩
  · simp at habs
  · subst hsplit
    obtain ⟨_, hmid, hcross⟩ := List.pairwise_append.mp hd
    obtain ⟨hmide, _⟩ := List.pairwise_cons.mp hmid
    refine ⟨List.mem_append_right _ (List.mem_cons_self _ _), hk, ?_⟩
    intro x hx hkx hne
    rcases List.mem_append.mp hx with hx1 | hx2
    · exact h₁ x hx1 hkx
    · rcases List.mem_cons.mp hx2 with rfl | hx3
      · exact absurd rfl hne
      · exact Nat.lt_of_le_of_ne (h₂ x hx3 hkx) fun hEq => hmide x hx3 hEq.symm

/-- Under distinct timestamps, the strict maximum determines the entry. -/
theorem groupOrders_lookup_of_strictMax {k : Nat} {l : List Event} {e : Event}
    (hd : DistinctTimes l) (he : e ∈ l) (hk : e.order_id = k)
    (hmax : ∀ x ∈ l, x.order_id = k → x ≠ e → x.created_at < e.created_at) :
    alookup k (groupOrders l) = some e := by
  obtain ⟨w, hw⟩ := groupOrders_lookup_isSome he hk
  obtain ⟨hwl, hwk, hwmax⟩ := groupOrders_lookup_strictMax hd hw
  by_cases hwe : w = e
  · rw [hw, hwe]
  · have h1 : w.created_at < e.created_at := hmax w hwl hwk hwe
    have h2 : e.created_at < w.created_at :=
      hwmax e he hk fun hEq => hwe hEq.symm
    exact absurd (Nat.lt_trans h1 h2) (Nat.lt_irrefl _)

/-- C9: for event lists with pairwise distinct `created_at`, the
projection mapping built by the `show_orders` grouping is invariant under
any permutation of the input sequence. -/
theorem C9_projection_perm_invariant (l l' : List Event)
    (hperm : l.Perm l') (hdist : DistinctTimes l) :
    ∀ k, alookup k (groupOrders l) = alookup k (groupOrders l') := by
  intro k
  have hdist' : DistinctTimes l' :=
    (hperm.pairwise_iff fun hxy => fun hEq => hxy hEq.symm).mp hdist
  cases h : alookup k (groupOrders l) with
  | none =>
    rw [alookup_groupOrders] at h
    obtain ⟨_, hall⟩ := (keyFold_none_iff k l none).mp h
    rw [alookup_groupOrders]
    exact ((keyFold_none_iff k l' none).mpr
      ⟨rfl, fun e he => hall e (hperm.symm.subset he)⟩).symm
  | some e =>
    obtain ⟨hel, hk, hmax⟩ := groupOrders_lookup_strictMax hdist h
    exact (groupOrders_lookup_of_strictMax hdist' (hperm.subset hel) hk
      fun x hx => hmax x (hperm.symm.subset hx)).symm

/-- One iteration of the grouping loop of `show_completed_orders`
(`bot.py` lines 200-205): insert only if the `order_id` is absent, never
overwrite. -/
def completedStep (d : List (Nat × Event)) (e : Event) : List (Nat × Event) :=
  match alookup e.order_id d with
  | none => d ++ [(e.order_id, e)]
  | some _ => d

/-- The `completed_orders` dict built by `show_completed_orders`. -/
def groupCompleted (events : List Event) : List (Nat × Event) :=
  events.foldl completedStep []

theorem alookup_completedStep (k : Nat) (d : List (Nat × Event)) (e : Event) :
    alookup k (completedStep d e) =
      (alookup k d).or (if e.order_id = k then some e else none) := by
  unfold completedStep
  by_cases hk : e.order_id = k
  · subst hk
    cases h : alookup e.order_id d with
    | none =>
      simp only [h]
      rw [alookup_append_of_none _ h]
      simp [alookup]
    | some v => simp [h]
  · cases h : alookup e.order_id d with
    | none =>
      simp only [h]
      cases h2 : alookup k d with
      | none =>
        rw [alookup_append_of_none _ h2]
        simp [alookup, hk, h2]
      | some v => simp [alookup_append_of_some _ h2, h2]
    | some v =>
      cases h2 : alookup k d <;> simp [h2, hk]

theorem alookup_foldl_completedStep (k : Nat) (l : List Event) :
    ∀ d : List (Nat × Event),
      alookup k (l.foldl completedStep d) =
        (alookup k d).or (l.find? (fun e => e.order_id == k)) := by
  induction l with
  | nil => intro d; cases h : alookup k d <;> simp [h]
  | cons e l ih =>
    intro d
    rw [List.foldl_cons, ih, alookup_completedStep]
    by_cases hk : e.order_id = k
    · cases h : alookup k d <;> simp [List.find?_cons, hk, h]
    · cases h : alookup k d <;> simp [List.find?_cons, hk, h]

theorem alookup_groupCompleted (k : Nat) (l : List Event) :
    alookup k (groupCompleted l) = l.find? (fun e => e.order_id == k) := by
  have h := alookup_foldl_completedStep k l []
  simpa [alookup, groupCompleted] using h

theorem nodup_map_fst_completedStep {d : List (Nat × Event)} (e : Event)
    (h : (d.map Prod.fst).Nodup) : ((completedStep d e).map Prod.fst).Nodup := by
  unfold completedStep
  cases hl : alookup e.order_id d with
  | none =>
    have hmem : e.order_id ∉ d.map Prod.fst := alookup_eq_none_iff.mp hl
    simp [List.nodup_append, h, hmem]
  | some _ => simpa using h

theorem nodup_map_fst_groupCompleted (l : List Event) :
    ((groupCompleted l).map Prod.fst).Nodup := by
  suffices h : ∀ d : List (Nat × Event), (d.map Prod.fst).Nodup →
      ((l.foldl completedStep d).map Prod.fst).Nodup from h [] (by simp)
  induction l with
  | nil => intro d hd; simpa using hd
  | cons e l ih =>
    intro d hd
    rw [List.foldl_cons]
    exact ih _ (nodup_map_fst_completedStep e hd)

/-- The `show_completed_orders` fetch (`bot.py` lines 189-194):
`payload.status == "Completed"`, 30-day window, descending order. -/
def fetchCompleted (store : List Event) (ws : Nat) : List Event :=
  List.insertionSort descBy
    (store.filter (fun e => e.status == "Completed" && decide (ws ≤ e.created_at)))

/-- C7: the completed-orders query keeps, for each `order_id`, the first
occurrence in the fetched (descending) sequence, with no latest-wins
re-check, and every order appears at most once. -/
theorem C7_completed_first_occurrence (store : List Event) (ws : Nat) :
    ((groupCompleted (fetchCompleted store ws)).map Prod.fst).Nodup ∧
    ∀ k, alookup k (groupCompleted (fetchCompleted store ws)) =
      (fetchCompleted store ws).find? (fun e => e.order_id == k) :=
  ⟨nodup_map_fst_groupCompleted _, fun k => alookup_groupCompleted k _⟩

/-- Does `f` hold of some suffix of the text?  Evaluation of the `%`
wildcard. -/
def anySuffix (f : List Char → Bool) : List Char → Bool
  | [] => f []
  | d :: t => f (d :: t) || anySuffix f t

/-- Case-sensitive SQL `LIKE` matching, the semantics PostgREST gives the
`.like` filter used by `filter_by_status` (`bot.py` line 253): `%` matches
any sequence, `_` matches any single character, `\` escapes the next
pattern character (a pattern ending in a bare `\` is invalid and matches
nothing). -/
def likeMatch : List Char → List Char → Bool
  | [], t => t.isEmpty
  | c :: p, t =>
    if c = '%' then anySuffix (fun u => likeMatch p u) t
    else if c = '_' then
      match t with
      | [] => false
      | _ :: t' => likeMatch p t'
    else if c = '\\' then
      match p with
      | [] => false
      | c' :: p' =>
        match t with
        | [] => false
        | d :: t' => c' == d && likeMatch p' t'
    else
      match t with
      | [] => false
      | d :: t' => c == d && likeMatch p t'

/-- The pattern `filter_by_status` builds: `%` ++ query ++ `%`. -/
def statusLikePattern (q : String) : List Char :=
  '%' :: (q.data ++ ['%'])

/-- A query string free of `LIKE` metacharacters. -/
def PlainQuery (q : String) : Prop :=
  ∀ c ∈ q.data, c ≠ '%' ∧ c ≠ '_' ∧ c ≠ '\\'

instance (q : String) : Decidable (PlainQuery q) :=
  inferInstanceAs (Decidable (∀ c ∈ q.data, _))

theorem anySuffix_iff (f : List Char → Bool) (t : List Char) :
    anySuffix f t = true ↔ ∃ u, u <:+ t ∧ f u = true := by
  induction t with
  | nil =>
    constructor
    · intro h; exact ⟨[], List.suffix_rfl, h⟩
    · rintro ⟨u, hu, hf⟩
      rw [List.suffix_nil.mp hu] at hf
      exact hf
  | cons d t ih =>
    rw [anySuffix]
    constructor
    · intro h
      rcases Bool.or_eq_true_iff.mp h with h1 | h2
      · exact ⟨d :: t, List.suffix_rfl, h1⟩
      · rcases ih.mp h2 with ⟨u, hu, hf⟩
        exact ⟨u, hu.trans (List.suffix_cons d t), hf⟩
    · rintro ⟨u, hu, hf⟩
      rcases List.suffix_cons_iff.mp hu with rfl | hu'
      · exact Bool.or_eq_true_iff.mpr (Or.inl hf)
      · exact Bool.or_eq_true_iff.mpr (Or.inr (ih.mpr ⟨u, hu', hf⟩))

theorem likeMatch_literal_percent {q : List Char}
    (hq : ∀ c ∈ q, c ≠ '%' ∧ c ≠ '_' ∧ c ≠ '\\') (t : List Char) :
    likeMatch (q ++ ['%']) t = true ↔ q <+: t := by
  induction q generalizing t with
  | nil =>
    rw [List.nil_append]
    have hunf : likeMatch ['%'] t = anySuffix (fun u => likeMatch [] u) t := by
      rw [likeMatch.eq_def]; simp
    rw [hunf, anySuffix_iff]
    constructor
    · intro _; exact List.nil_prefix
    · intro _
      exact ⟨[], List.nil_suffix, rfl⟩
  | cons c q ih =>
    obtain ⟨hc1, hc2, hc3⟩ := hq c (List.mem_cons_self c q)
    have hq' : ∀ x ∈ q, x ≠ '%' ∧ x ≠ '_' ∧ x ≠ '\\' :=
      fun x hx => hq x (List.mem_cons_of_mem c hx)
    rw [List.cons_append]
    cases t with
    | nil =>
      rw [likeMatch.eq_def]
      simp [hc1, hc2, hc3]
    | cons d t' =>
      rw [likeMatch.eq_def]
      simp only [hc1, hc2, hc3, if_false, ite_false]
      rw [List.cons_prefix_cons]
      simp [hc1, hc2, hc3, ih hq' t']

/-- For a metacharacter-free query, the pattern `%q%` matches a text
exactly when `q` occurs as a contiguous substring of it. -/
theorem likeMatch_wrap_iff {q : String} (hq : PlainQuery q) (t : List Char) :
    likeMatch (statusLikePattern q) t = true ↔ q.data <:+: t := by
  rw [statusLikePattern]
  have hunf : likeMatch ('%' :: (q.data ++ ['%'])) t
      = anySuffix (fun u => likeMatch (q.data ++ ['%']) u) t := by
    rw [likeMatch.eq_def]; simp
  rw [hunf, anySuffix_iff]
  constructor
  · rintro ⟨u, hu, hf⟩
    obtain ⟨r, hr⟩ := (likeMatch_literal_percent hq u).mp hf
    obtain ⟨s, hs⟩ := hu
    exact ⟨s, r, by rw [List.append_assoc, hr, hs]⟩
  · rintro ⟨s, r, hsr⟩
    refine ⟨q.data ++ r, ⟨s, by rw [← List.append_assoc, hsr]⟩, ?_⟩
    exact (likeMatch_literal_percent hq _).mpr ⟨r, rfl⟩

/-- The `filter_by_status` fetch (`bot.py` lines 251-256): `LIKE`
containment of the query in the payload status, 30-day window, descending
order. -/
def fetchStatus (store : List Event) (ws : Nat) (q : String) : List Event :=
  List.insertionSort descBy
    (store.filter
      (fun e => likeMatch (statusLikePattern q) e.status.data && decide (ws ≤ e.created_at)))

theorem mem_fetchStatus {store : List Event} {ws : Nat} {q : String} {e : Event} :
    e ∈ fetchStatus store ws q ↔
      e ∈ store ∧ likeMatch (statusLikePattern q) e.status.data = true ∧
        ws ≤ e.created_at := by
  unfold fetchStatus
  rw [(List.perm_insertionSort descBy _).mem_iff]
  simp [List.mem_filter, and_assoc]

/-- C2 (amended): for a query free of `LIKE` metacharacters, an in-window
event is included exactly when the query is a case-sensitive substring of
the payload status; no per-order deduplication happens — the result is a
permutation of the full filtered event list, one row per matching
event. -/
theorem C2_status_filter_substring (store : List Event) (ws : Nat) (q : String)
    (hq : PlainQuery q) :
    (∀ e ∈ store, ws ≤ e.created_at →
        (e ∈ fetchStatus store ws q ↔ q.data <:+: e.status.data)) ∧
    (fetchStatus store ws q).Perm (store.filter
      (fun e => likeMatch (statusLikePattern q) e.status.data && decide (ws ≤ e.created_at))) := by
  refine ⟨?_, List.perm_insertionSort descBy _⟩
  intro e he hw
  rw [mem_fetchStatus]
  constructor
  · rintro ⟨_, hlm, _⟩
    exact (likeMatch_wrap_iff hq e.status.data).mp hlm
  · intro hsub
    exact ⟨he, (likeMatch_wrap_iff hq e.status.data).mpr hsub, hw⟩

/-- An event whose status contains a space where the query has `_`. -/
def evTransit : Event :=
  { order_id := 5, event_type := "STATUS_CHANGED", created_at := 3,
    status := "In Transit" }

/-- C2 counterexample: with the query `In_Transit` the `LIKE` filter of
`filter_by_status` includes an event whose status is `In Transit`, yet the
query is not a substring of that status — inclusion is `LIKE` matching,
not substring containment, when the argument contains `LIKE`
metacharacters. -/
theorem C2_counterexample_like_wildcard :
    evTransit ∈ fetchStatus [evTransit] 0 "In_Transit" ∧
    ¬ ("In_Transit".data <:+: evTransit.status.data) := by decide

/-- The rows shown by `filter_by_status` (`response.data[:20]`,
`bot.py` line 264). -/
def statusRows (store : List Event) (ws : Nat) (q : String) : List Event :=
  (fetchStatus store ws q).take 20

/-- The trailing remainder count of `filter_by_status`
(`bot.py` lines 281-282): present only when more than 20 events match. -/
def statusRemainder (store : List Event) (ws : Nat) (q : String) : Option Nat :=
  if 20 < (fetchStatus store ws q).length then
    some ((fetchStatus store ws q).length - 20)
  else none

/-- C6: with `N` matching events, more than 20 matches give exactly the
first 20 rows of the descending-sorted result plus a remainder count of
`N - 20`; at most 20 matches give all `N` rows and no remainder. -/
theorem C6_truncation_accounting (store : List Event) (ws : Nat) (q : String) :
    statusRows store ws q <+: fetchStatus store ws q ∧
    (fetchStatus store ws q).Sorted descBy ∧
    (20 < (fetchStatus store ws q).length →
      (statusRows store ws q).length = 20 ∧
      statusRemainder store ws q = some ((fetchStatus store ws q).length - 20)) ∧
    ((fetchStatus store ws q).length ≤ 20 →
      statusRows store ws q = fetchStatus store ws q ∧
      statusRemainder store ws q = none) := by
  refine ⟨List.take_prefix _ _, List.sorted_insertionSort descBy _, ?_, ?_⟩
  · intro h
    constructor
    · rw [statusRows, List.length_take]
      omega
    · rw [statusRemainder, if_pos h]
  · intro h
    constructor
    · rw [statusRows]
      exact List.take_of_length_le h
    · rw [statusRemainder, if_neg (by omega)]

/-- A row of the `notifications_queue` table. -/
structure Task where
  id : Nat
  telegram_id : Nat
  message_text : String
  status : String
  created_at : Nat
  sent_at : Option Nat
  deriving DecidableEq

/-- Ascending `created_at` ordering of the pending fetch
(`order("created_at")` with default direction). -/
def ascBy (a b : Task) : Prop := a.created_at ≤ b.created_at

instance : DecidableRel ascBy := fun a b => Nat.decLe a.created_at b.created_at

instance : IsTotal Task ascBy := ⟨fun a b => Nat.le_total a.created_at b.created_at⟩

instance : IsTrans Task ascBy := ⟨fun _ _ _ => Nat.le_trans⟩

/-- The dispatcher fetch of `check_notifications` (`bot.py` lines
623-628): `status == "pending"`, oldest `created_at` first, `limit(10)`. -/
def fetchPending (store : List Task) : List Task :=
  (List.insertionSort ascBy (store.filter (fun t => t.status == "pending"))).take 10

/-- The row update applied on successful delivery (`bot.py` lines
639-642): `status = "sent"`, `sent_at = now`. -/
def markSent (now : Nat) (t : Task) : Task :=
  { t with status := "sent", sent_at := some now }

theorem markSent_id (now : Nat) (t : Task) : (markSent now t).id = t.id := rfl

/-- Processing of one fetched task (`bot.py` lines 630-645): a successful
send marks the row with that `id` as sent; a failed send leaves the store
untouched (the `except` branch only logs and continues). -/
def applySendResult (sendOk : Task → Bool) (now : Nat) (store : List Task)
    (t : Task) : List Task :=
  if sendOk t then
    store.map (fun u => if u.id == t.id then markSent now u else u)
  else store

/-- One poll cycle of `check_notifications`: every fetched task is
processed in order, regardless of earlier failures. -/
def checkNotifications (store : List Task) (sendOk : Task → Bool) (now : Nat) :
    List Task :=
  (fetchPending store).foldl (applySendResult sendOk now) store

theorem filter_id_map_update_ne {s : List Task} {tid tid' : Nat} (now : Nat)
    (h : tid' ≠ tid) :
    (s.map (fun u => if u.id == tid' then markSent now u else u)).filter
        (fun u => u.id == tid)
      = s.filter (fun u => u.id == tid) := by
  induction s with
  | nil => rfl
  | cons u s ih =>
    rw [List.map_cons, List.filter_cons, List.filter_cons]
    by_cases hut : u.id = tid
    · have hu : ¬ u.id = tid' := by
        rw [hut]
        exact fun hc => h hc.symm
      have h1 : (if (u.id == tid') = true then markSent now u else u) = u :=
        if_neg (by simpa using hu)
      rw [h1, if_pos (by simpa using hut), if_pos (by simpa using hut), ih]
    · have hfu : ¬ ((if (u.id == tid') = true then markSent now u else u).id == tid) = true := by
        by_cases hu : u.id = tid' <;> simp [hu, markSent, hut, h]
      rw [if_neg hfu, if_neg (by simpa using hut), ih]

theorem filter_id_map_update_eq {s : List Task} {tid : Nat} (now : Nat) :
    (s.map (fun u => if u.id == tid then markSent now u else u)).filter
        (fun u => u.id == tid)
      = (s.filter (fun u => u.id == tid)).map (markSent now) := by
  induction s with
  | nil => rfl
  | cons u s ih =>
    rw [List.map_cons, List.filter_cons, List.filter_cons]
    by_cases hu : u.id = tid
    · have h1 : (if (u.id == tid) = true then markSent now u else u) = markSent now u :=
        if_pos (by simpa using hu)
      rw [h1, if_pos (by simp [markSent, hu]), if_pos (by simpa using hu),
        List.map_cons, ih]
    · have h1 : (if (u.id == tid) = true then markSent now u else u) = u :=
        if_neg (by simpa using hu)
      rw [h1, if_neg (by simpa using hu), if_neg (by simpa using hu), ih]

theorem filter_id_applySendResult_ne {sendOk : Task → Bool} {now : Nat}
    {s : List Task} {t : Task} {tid : Nat} (h : t.id ≠ tid) :
    (applySendResult sendOk now s t).filter (fun u => u.id == tid)
      = s.filter (fun u => u.id == tid) := by
  rw [applySendResult]
  by_cases hok : sendOk t
  · rw [if_pos hok, filter_id_map_update_ne now h]
  · rw [if_neg hok]

theorem filter_id_applySendResult_self {sendOk : Task → Bool} {now : Nat}
    {s : List Task} {t : Task} :
    (applySendResult sendOk now s t).filter (fun u => u.id == t.id)
      = if sendOk t then (s.filter (fun u => u.id == t.id)).map (markSent now)
        else s.filter (fun u => u.id == t.id) := by
  rw [applySendResult]
  by_cases hok : sendOk t
  · rw [if_pos hok, if_pos hok, filter_id_map_update_eq now]
  · rw [if_neg hok, if_neg hok]

theorem filter_id_foldl_not_mem {sendOk : Task → Bool} {now : Nat}
    (ts : List Task) :
    ∀ (s : List Task) (tid : Nat), (∀ x ∈ ts, x.id ≠ tid) →
      (ts.foldl (applySendResult sendOk now) s).filter (fun u => u.id == tid)
        = s.filter (fun u => u.id == tid) := by
  induction ts with
  | nil => intro s tid _; rfl
  | cons x ts ih =>
    intro s tid hall
    rw [List.foldl_cons,
      ih _ _ (fun y hy => hall y (List.mem_cons_of_mem x hy)),
      filter_id_applySendResult_ne (hall x (List.mem_cons_self x ts))]

theorem filter_id_foldl_batch {sendOk : Task → Bool} {now : Nat}
    (ts : List Task) :
    ∀ (s : List Task) (t : Task), (ts.map Task.id).Nodup → t ∈ ts →
      (ts.foldl (applySendResult sendOk now) s).filter (fun u => u.id == t.id)
        = if sendOk t then (s.filter (fun u => u.id == t.id)).map (markSent now)
          else s.filter (fun u => u.id == t.id) := by
  induction ts with
  | nil => intro s t _ ht; cases ht
  | cons x ts ih =>
    intro s t hnd ht
    rw [List.map_cons, List.nodup_cons] at hnd
    rw [List.foldl_cons]
    rcases List.mem_cons.mp ht with rfl | hmem
    · have hnot : ∀ y ∈ ts, y.id ≠ t.id := by
        intro y hy hEq
        exact hnd.1 (hEq ▸ List.mem_map_of_mem Task.id hy)
      rw [filter_id_foldl_not_mem ts _ _ hnot, filter_id_applySendResult_self]
    · have hx : x.id ≠ t.id := by
        intro hEq
        exact hnd.1 (hEq ▸ List.mem_map_of_mem Task.id hmem)
      rw [ih _ _ hnd.2 hmem, filter_id_applySendResult_ne hx]

theorem filter_id_eq_single {s : List Task} {t : Task}
    (hnd : (s.map Task.id).Nodup) (ht : t ∈ s) :
    s.filter (fun u => u.id == t.id) = [t] := by
  induction s with
  | nil => cases ht
  | cons x s ih =>
    rw [List.map_cons, List.nodup_cons] at hnd
    rcases List.mem_cons.mp ht with rfl | hmem
    · rw [List.filter_cons_of_pos (by simp)]
      have hrest : s.filter (fun u => u.id == t.id) = [] := by
        apply List.filter_eq_nil_iff.mpr
        intro u hu
        simp only [beq_iff_eq]
        intro hEq
        exact hnd.1 (hEq ▸ List.mem_map_of_mem Task.id hu)
      rw [hrest]
    · have hx : x.id ≠ t.id := fun hEq =>
        hnd.1 (hEq ▸ List.mem_map_of_mem Task.id hmem)
      rw [List.filter_cons_of_neg (by simp [hx])]
      exact ih hnd.2 hmem

theorem mem_of_mem_fetchPending {store : List Task} {t : Task}
    (h : t ∈ fetchPending store) : t ∈ store ∧ t.status = "pending" := by
  rw [fetchPending] at h
  have h2 := (List.take_sublist 10 _).subset h
  rw [(List.perm_insertionSort ascBy _).mem_iff] at h2
  simpa using List.mem_filter.mp h2

theorem nodup_fetchPending_ids {store : List Task}
    (hnd : (store.map Task.id).Nodup) :
    ((fetchPending store).map Task.id).Nodup := by
  have h1 : ((store.filter (fun t => t.status == "pending")).map Task.id).Nodup :=
    ((List.filter_sublist store).map Task.id).nodup hnd
  have h2 : ((List.insertionSort ascBy
      (store.filter (fun t => t.status == "pending"))).map Task.id).Nodup :=
    (((List.perm_insertionSort ascBy _).map Task.id).nodup_iff).mpr h1
  exact ((List.take_sublist 10 _).map Task.id).nodup h2

/-- C4: one poll cycle fetches at most `min(10, pending_count)` tasks,
oldest first; a fetched task whose send succeeds becomes `sent` with
`sent_at` set, a fetched task whose send fails stays `pending` with
`sent_at` unset, and one task's failure never affects the processing of
the other fetched tasks. -/
theorem C4_dispatcher_cycle (store : List Task) (sendOk : Task → Bool)
    (now : Nat) (hids : (store.map Task.id).Nodup)
    (hsa : ∀ u ∈ store, u.status = "pending" → u.sent_at = none) :
    (fetchPending store).length
        = min 10 (store.filter (fun t => t.status == "pending")).length ∧
    (fetchPending store).Sorted ascBy ∧
    ∀ t ∈ fetchPending store,
      t.status = "pending" ∧ t.sent_at = none ∧
      (checkNotifications store sendOk now).filter (fun u => u.id == t.id)
        = if sendOk t then [markSent now t] else [t] := by
  refine ⟨?_, ?_, ?_⟩
  · rw [fetchPending, List.length_take,
      (List.perm_insertionSort ascBy _).length_eq]
  · exact (List.sorted_insertionSort ascBy _).sublist (List.take_sublist 10 _)
  · intro t ht
    obtain ⟨hstore, hpend⟩ := mem_of_mem_fetchPending ht
    have hsingle : store.filter (fun u => u.id == t.id) = [t] :=
      filter_id_eq_single hids hstore
    refine ⟨hpend, hsa t hstore hpend, ?_⟩
    rw [checkNotifications,
      filter_id_foldl_batch (fetchPending store) store t
        (nodup_fetchPending_ids hids) ht, hsingle]
    by_cases hok : sendOk t <;> simp [hok]

/-- The refusal message sent to non-administrators. -/
def adminOnlyText : String := "⛔ Эта команда только для администраторов"

/-- The usage hint of `/notify` when no text is given. -/
def notifyUsageText : String := "ℹ️ Использование: /notify [текст уведомления]"

/-- The reply of `/notify` when the registry is empty. -/
def noUsersText : String := "📭 Нет зарегистрированных пользователей"

/-- One observable action of a handler: a database read or write, a
message sent to some chat, or a reply to the caller. -/
inductive Effect where
  | dbRead (table : String)
  | dbWrite (table : String)
  | sendMessage (chat : Nat)
  | reply (text : String)
  deriving DecidableEq

/-- The accumulation loop of `send_notification` (`bot.py` lines
586-599): one send attempt per registered user, counting successes and
failures; a failure only increments `failed_count` and the loop goes
on. -/
def broadcastTally (users : List Nat) (sendOk : Nat → Bool) : Nat × Nat :=
  users.foldl
    (fun acc u => if sendOk u then (acc.1 + 1, acc.2) else (acc.1, acc.2 + 1))
    (0, 0)

/-- The statistics reply of `show_stats`; the exact formatting of the
counts does not matter to any claim and is abbreviated. -/
def statsMessage (usersCount eventsCount weeklyCount adminCount : Nat) : String :=
  "📊 users=" ++ toString usersCount ++ " admins=" ++ toString adminCount ++
    " events=" ++ toString eventsCount ++ " week=" ++ toString weeklyCount

/-- The tally reply of `send_notification` (`bot.py` lines 601-605). -/
def tallyMessage (p : Nat × Nat) : String :=
  "📨 Уведомление отправлено: успешно " ++ toString p.1 ++
    ", не удалось " ++ toString p.2

/-- Effect trace of `show_stats` (`bot.py` lines 510-557): the admin
check precedes every database access; the admin branch reads the user
registry once and the event log twice, then replies. -/
def showStatsEffects (admins : List Nat) (uid : Nat)
    (usersCount eventsCount weeklyCount : Nat) : List Effect :=
  if uid ∉ admins then [.reply adminOnlyText]
  else
    [.dbRead "bot_users", .dbRead "cloud_sync_log", .dbRead "cloud_sync_log",
     .reply (statsMessage usersCount eventsCount weeklyCount admins.length)]

/-- Effect trace of `send_notification` (`bot.py` lines 564-609): admin
check, then argument check, then the registry read, then one send attempt
per user, then the tally reply. -/
def sendNotificationEffects (admins : List Nat) (uid : Nat)
    (args : List String) (users : List Nat) (sendOk : Nat → Bool) :
    List Effect :=
  if uid ∉ admins then [.reply adminOnlyText]
  else if args.isEmpty then [.reply notifyUsageText]
  else
    Effect.dbRead "bot_users" ::
      (if users.isEmpty then [.reply noUsersText]
       else users.map Effect.sendMessage ++
         [.reply (tallyMessage (broadcastTally users sendOk))])

theorem broadcastTally_fst_add_snd (users : List Nat) (sendOk : Nat → Bool) :
    (broadcastTally users sendOk).1 + (broadcastTally users sendOk).2
      = users.length := by
  suffices h : ∀ acc : Nat × Nat,
      (users.foldl
        (fun acc u => if sendOk u then (acc.1 + 1, acc.2) else (acc.1, acc.2 + 1))
        acc).1 +
      (users.foldl
        (fun acc u => if sendOk u then (acc.1 + 1, acc.2) else (acc.1, acc.2 + 1))
        acc).2 = acc.1 + acc.2 + users.length by
    simpa [broadcastTally] using h (0, 0)
  induction users with
  | nil => intro acc; simp
  | cons u us ih =>
    intro acc
    rw [List.foldl_cons, ih]
    cases h : sendOk u <;> simp [h] <;> omega

/-- C3: an admin-issued broadcast with non-empty text over a non-empty
recipient list of size `R` attempts exactly one send per recipient, in
registry order — a failed send never aborts the remaining attempts — and
the reported tally satisfies `sent_count + failed_count = R`. -/
theorem C3_broadcast_tally (admins : List Nat) (uid : Nat)
    (args : List String) (users : List Nat) (sendOk : Nat → Bool)
    (hadmin : uid ∈ admins) (hargs : ¬ args.isEmpty = true)
    (husers : ¬ users.isEmpty = true) :
    sendNotificationEffects admins uid args users sendOk =
      Effect.dbRead "bot_users" :: users.map Effect.sendMessage ++
        [.reply (tallyMessage (broadcastTally users sendOk))] ∧
    (broadcastTally users sendOk).1 + (broadcastTally users sendOk).2
      = users.length := by
  constructor
  · rw [sendNotificationEffects, if_neg (fun hc => hc hadmin), if_neg hargs,
      if_neg husers, List.cons_append]
  · exact broadcastTally_fst_add_snd users sendOk

/-- C8: a caller outside the admin set invoking `/stats` or `/notify`
receives only the refusal reply: no database read or write happens and no
message is sent to any other recipient. -/
theorem C8_unauthorized_no_effects (admins : List Nat) (uid : Nat)
    (usersCount eventsCount weeklyCount : Nat) (args : List String)
    (users : List Nat) (sendOk : Nat → Bool) (h : uid ∉ admins) :
    showStatsEffects admins uid usersCount eventsCount weeklyCount
        = [.reply adminOnlyText] ∧
    sendNotificationEffects admins uid args users sendOk
        = [.reply adminOnlyText] ∧
    (∀ x ∈ showStatsEffects admins uid usersCount eventsCount weeklyCount,
      (∀ tbl, x ≠ .dbRead tbl ∧ x ≠ .dbWrite tbl) ∧ ∀ c, x ≠ .sendMessage c) ∧
    (∀ x ∈ sendNotificationEffects admins uid args users sendOk,
      (∀ tbl, x ≠ .dbRead tbl ∧ x ≠ .dbWrite tbl) ∧ ∀ c, x ≠ .sendMessage c) := by
  have h1 : showStatsEffects admins uid usersCount eventsCount weeklyCount
      = [.reply adminOnlyText] := by
    rw [showStatsEffects, if_pos h]
  have h2 : sendNotificationEffects admins uid args users sendOk
      = [.reply adminOnlyText] := by
    rw [sendNotificationEffects, if_pos h]
  refine ⟨h1, h2, ?_, ?_⟩
  · rw [h1]
    intro x hx
    rw [List.mem_singleton.mp hx]
    exact ⟨fun tbl => ⟨by simp, by simp⟩, fun c => by simp⟩
  · rw [h2]
    intro x hx
    rw [List.mem_singleton.mp hx]
    exact ⟨fun tbl => ⟨by simp, by simp⟩, fun c => by simp⟩

/-- A row of the `bot_users` registry; the display-only name attributes
are elided. -/
structure UserRow where
  telegram_id : Nat
  username : String
  is_admin : Bool
  deriving DecidableEq

/-- The `user_data` record built by `start` (`bot.py` lines 50-56). -/
def mkUserRow (admins : List Nat) (uid : Nat) (uname : String) : UserRow :=
  { telegram_id := uid, username := uname, is_admin := decide (uid ∈ admins) }

/-- The registration step of `start` (`bot.py` lines 49-63): the user row
is inserted only when the select on `telegram_id` returns no row. -/
def startRegister (admins : List Nat) (store : List UserRow) (uid : Nat)
    (uname : String) : List UserRow :=
  if (store.filter (fun u => u.telegram_id == uid)).length = 0 then
    store ++ [mkUserRow admins uid uname]
  else store

/-- C10: `/start` registration is insert-if-absent — a row is written
only when none with the caller's `telegram_id` exists, repeating `/start`
is idempotent, a fresh registration leaves exactly one row, and the
at-most-one-row-per-user registry invariant is preserved. -/
theorem C10_registration_insert_if_absent (admins : List Nat)
    (store : List UserRow) (uid : Nat) (uname : String) :
    ((store.filter (fun u => u.telegram_id == uid)).length ≠ 0 →
      startRegister admins store uid uname = store) ∧
    startRegister admins (startRegister admins store uid uname) uid uname
      = startRegister admins store uid uname ∧
    ((store.filter (fun u => u.telegram_id == uid)).length = 0 →
      ((startRegister admins store uid uname).filter
        (fun u => u.telegram_id == uid)).length = 1) ∧
    ((∀ i, (store.filter (fun u => u.telegram_id == i)).length ≤ 1) →
      ∀ i, ((startRegister admins store uid uname).filter
        (fun u => u.telegram_id == i)).length ≤ 1) := by
  by_cases h0 : (store.filter (fun u => u.telegram_id == uid)).length = 0
  · have hreg : startRegister admins store uid uname
        = store ++ [mkUserRow admins uid uname] := by
      rw [startRegister, if_pos h0]
    have hone : ((startRegister admins store uid uname).filter
        (fun u => u.telegram_id == uid)).length = 1 := by
      rw [hreg, List.filter_append, List.length_append, h0]
      simp [mkUserRow]
    refine ⟨fun hne => absurd h0 hne, ?_, fun _ => hone, ?_⟩
    · rw [startRegister, if_neg (by rw [hone]; exact one_ne_zero)]
    · intro hinv i
      rw [hreg, List.filter_append, List.length_append]
      by_cases hi : uid = i
      · subst hi
        rw [h0]
        simp [mkUserRow]
      · have hrow : (([mkUserRow admins uid uname] : List UserRow).filter
              (fun u => u.telegram_id == i)).length = 0 := by
          simp [mkUserRow, hi]
        rw [hrow]
        simpa using hinv i
  · have hreg : startRegister admins store uid uname = store := by
      rw [startRegister, if_neg h0]
    rw [hreg]
    exact ⟨fun _ => rfl, by rw [hreg], fun hc => absurd hc h0, fun hinv => hinv⟩

/-- Sample event: order 1 created at time 5. -/
def evA1 : Event :=
  { order_id := 1, event_type := "ORDER_CREATED", created_at := 5,
    status := "New" }

/-- Sample event: order 1 updated, with a `created_at` tied with `evA1`. -/
def evA2 : Event :=
  { order_id := 1, event_type := "STATUS_CHANGED", created_at := 5,
    status := "In Progress CHN" }

/-- Sample event: order 2 completed at time 7. -/
def evB : Event :=
  { order_id := 2, event_type := "STATUS_CHANGED", created_at := 7,
    status := "Completed" }

/-- Sample event: order 1 deleted at time 9. -/
def evDel : Event :=
  { order_id := 1, event_type := "ORDER_DELETED", created_at := 9,
    status := "" }

/-- Sample event: order 3 deleted at time 6, its only event. -/
def evDel2 : Event :=
  { order_id := 3, event_type := "ORDER_DELETED", created_at := 6,
    status := "" }

/-- Sample event with status `Completed`, order 4, time 2. -/
def evCompl : Event :=
  { order_id := 4, event_type := "STATUS_CHANGED", created_at := 2,
    status := "Completed" }

/-- C1 witness: on a concrete tie between two events of order 1 the first
event in input order is kept. -/
theorem C1_witness :
    evA1.order_id = 1 ∧
    (∀ x ∈ [evA1, evA2], x.order_id = 1 → x.created_at ≤ evA1.created_at) ∧
    ∃ l₁ l₂, [evA1, evA2] = l₁ ++ evA1 :: l₂ ∧
      (∀ x ∈ l₁, x.order_id = 1 → x.created_at < evA1.created_at) ∧
      (∀ x ∈ l₂, x.order_id = 1 → x.created_at ≤ evA1.created_at) :=
  (C1_projection_latest_wins [evA1, evA2]).2 1 evA1 (by decide)

/-- C2 witness: for the metacharacter-free query `Completed` inclusion
coincides with substring containment on a concrete store. -/
theorem C2_witness :
    evCompl ∈ fetchStatus [evCompl] 0 "Completed" ↔
      "Completed".data <:+: evCompl.status.data :=
  (C2_status_filter_substring [evCompl] 0 "Completed" (by decide)).1
    evCompl (by decide) (by decide)

/-- C3 witness: broadcasting to three recipients where recipient 2 fails
yields one attempt per recipient and a tally summing to 3. -/
theorem C3_witness :
    sendNotificationEffects [7] 7 ["hi"] [1, 2, 3] (fun u => decide (u ≠ 2)) =
      Effect.dbRead "bot_users" :: [1, 2, 3].map Effect.sendMessage ++
        [.reply (tallyMessage (broadcastTally [1, 2, 3]
          (fun u => decide (u ≠ 2))))] ∧
    (broadcastTally [1, 2, 3] (fun u => decide (u ≠ 2))).1 +
      (broadcastTally [1, 2, 3] (fun u => decide (u ≠ 2))).2
        = [1, 2, 3].length :=
  C3_broadcast_tally [7] 7 ["hi"] [1, 2, 3] (fun u => decide (u ≠ 2))
    (by decide) (by decide) (by decide)

/-- Sample pending task, id 1, oldest. -/
def taskA : Task :=
  { id := 1, telegram_id := 11, message_text := "m1", status := "pending",
    created_at := 3, sent_at := none }

/-- Sample pending task, id 2, whose send will fail. -/
def taskB : Task :=
  { id := 2, telegram_id := 12, message_text := "m2", status := "pending",
    created_at := 5, sent_at := none }

/-- Sample already-sent task, id 3. -/
def taskC : Task :=
  { id := 3, telegram_id := 13, message_text := "m3", status := "sent",
    created_at := 1, sent_at := some 2 }

/-- C4 witness: a concrete cycle over three tasks where the send to task
id 2 fails. -/
theorem C4_witness :
    (fetchPending [taskA, taskB, taskC]).length
        = min 10 ([taskA, taskB, taskC].filter
            (fun t => t.status == "pending")).length ∧
    (fetchPending [taskA, taskB, taskC]).Sorted ascBy ∧
    ∀ t ∈ fetchPending [taskA, taskB, taskC],
      t.status = "pending" ∧ t.sent_at = none ∧
      (checkNotifications [taskA, taskB, taskC]
          (fun t => decide (t.id ≠ 2)) 9).filter (fun u => u.id == t.id)
        = if decide (t.id ≠ 2) then [markSent 9 t] else [t] :=
  C4_dispatcher_cycle [taskA, taskB, taskC] (fun t => decide (t.id ≠ 2)) 9
    (by decide) (by decide)

/-- C5 witness: order 1 keeps a projection entry from its non-deletion
event although a newer deletion event exists. -/
theorem C5_witness :
    ∃ v, alookup evA1.order_id
        (groupOrders (fetchActive [evDel, evA1, evDel2] 0)) = some v :=
  (C5_deleted_excluded_at_fetch [evDel, evA1, evDel2] 0).2.2 evA1
    (by decide) (by decide) (by decide)

/-- C6 witness: with a single matching event no remainder is shown and
all rows appear. -/
theorem C6_witness :
    statusRows [evCompl] 0 "Completed" = fetchStatus [evCompl] 0 "Completed" ∧
    statusRemainder [evCompl] 0 "Completed" = none :=
  (C6_truncation_accounting [evCompl] 0 "Completed").2.2.2 (by decide)

/-- C7 witness: the completed-orders entry of order 2 on a concrete
store. -/
theorem C7_witness :
    alookup 2 (groupCompleted (fetchCompleted [evB] 0)) =
      (fetchCompleted [evB] 0).find? (fun e => e.order_id == 2) :=
  (C7_completed_first_occurrence [evB] 0).2 2

/-- C8 witness: concrete non-admin caller 3 against admin set `[7]`. -/
theorem C8_witness :
    showStatsEffects [7] 3 10 20 5 = [.reply adminOnlyText] ∧
    sendNotificationEffects [7] 3 ["hi"] [1] (fun _ => true)
        = [.reply adminOnlyText] ∧
    (∀ x ∈ showStatsEffects [7] 3 10 20 5,
      (∀ tbl, x ≠ .dbRead tbl ∧ x ≠ .dbWrite tbl) ∧ ∀ c, x ≠ .sendMessage c) ∧
    (∀ x ∈ sendNotificationEffects [7] 3 ["hi"] [1] (fun _ => true),
      (∀ tbl, x ≠ .dbRead tbl ∧ x ≠ .dbWrite tbl) ∧ ∀ c, x ≠ .sendMessage c) :=
  C8_unauthorized_no_effects [7] 3 10 20 5 ["hi"] [1] (fun _ => true)
    (by decide)

/-- C9 witness: a concrete swap of two distinct-timestamp events leaves
the projection entry of order 1 unchanged. -/
theorem C9_witness :
    alookup 1 (groupOrders [evA1, evB]) = alookup 1 (groupOrders [evB, evA1]) :=
  C9_projection_perm_invariant [evA1, evB] [evB, evA1]
    (List.Perm.swap evB evA1 []) (by decide) 1

/-- C10 witness: registering user 5 in an empty registry leaves exactly
one row. -/
theorem C10_witness :
    ((startRegister [7] [] 5 "alice").filter
      (fun u => u.telegram_id == 5)).length = 1 :=
  (C10_registration_insert_if_absent [7] [] 5 "alice").2.2.1 (by decide)

end Bot
